import Mathlib

/-
Shallow embedding of the schedule-grid and CSV logic of src/frontend/app.js
(tt_generator).

Modelling conventions for the JavaScript semantics:
- JS objects and Object.keys are modelled as association lists in key
  insertion order.
- Array.prototype.sort with a comparator is stable (required since ES2019);
  for a consistent comparator the stable sorted permutation is unique, so it
  is modelled by the stable List.insertionSort on the relation
  "comparator value is not positive".  A comparator application returning
  NaN behaves in engines like 0 (it is neither < 0 nor > 0), which
  jsFloatSubSign reflects.
- parseFloat is modelled with exact rational values (the IEEE doubles of the
  short decimal literals occurring here compare like the exact rationals);
  NaN and the Infinity results are explicit constructors of JsFloat.
- trim, split('-')[0], replace(':', '.') and replace(/"/g, '""') are
  modelled character by character on List Char.
-/

namespace TT

/-- A schedule mapping: day name, then time-slot label to cell label, as an
association list in JS object key insertion order. -/
abbrev Schedule := List (String × List (String × String))

/-- The canonical weekday list, line 208 of app.js. -/
def dayOrder : List String :=
  ["Monday", "Tuesday", "Wednesday", "Thursday", "Friday", "Saturday", "Sunday"]

/-- JS Array.prototype.indexOf: index of the first occurrence, or -1. -/
def jsIndexOf : List String → String → Int
  | [], _ => -1
  | d :: ds, x =>
    if d = x then 0
    else if jsIndexOf ds x = -1 then -1 else jsIndexOf ds x + 1

/-- dayOrder.indexOf(d), the sort key of the day comparator (lines 209-211). -/
def dayIdx (d : String) : Int := jsIndexOf dayOrder d

/-- The day comparator dayOrder.indexOf(a) - dayOrder.indexOf(b) is not
positive, so that a stable sort keeps a no later than b. -/
def dayLE (a b : String) : Prop := dayIdx a - dayIdx b ≤ 0

instance : DecidableRel dayLE := fun _ _ => Int.decLe _ _

/-- days.sort((a, b) => dayOrder.indexOf(a) - dayOrder.indexOf(b)). -/
def sortDays (days : List String) : List String := days.insertionSort dayLE

/-- Object.keys(data), in insertion order. -/
def daysOf (s : Schedule) : List String := s.map Prod.fst

/-- The whitespace characters recognised by JS trim and parseFloat. -/
def isJsWs (c : Char) : Bool :=
  c == ' ' || c == '\t' || c == '\n' || c == '\r' || c == '\u000B' ||
    c == '\u000C' || c == '\u00A0' || c == '\uFEFF' || c == '\u2028' || c == '\u2029'

/-- String.prototype.trim. -/
def trimL (cs : List Char) : List Char :=
  ((cs.dropWhile isJsWs).reverse.dropWhile isJsWs).reverse

/-- String.prototype.replace(':', '.'): only the first occurrence. -/
def replaceFirstColon : List Char → List Char
  | [] => []
  | c :: cs => if c = ':' then '.' :: cs else c :: replaceFirstColon cs

/-- Value of a list of decimal digit characters. -/
def digitsToNat (ds : List Char) : Nat :=
  ds.foldl (fun n c => 10 * n + (c.toNat - 48)) 0

/-- A JS number as far as this code can observe it: NaN, a signed infinity,
or a finite value written exactly as a signed decimal m * 10 ^ e (the IEEE
doubles of the short decimal literals occurring here compare like the exact
decimals, and an exact decimal pair keeps every operation kernel-computable). -/
inductive JsFloat where
  | nan : JsFloat
  | inf : Bool → JsFloat
  | num : Int → Int → JsFloat
deriving DecidableEq

/-- The exact rational value of a finite JsFloat. -/
def jsValue : JsFloat → Option ℚ
  | JsFloat.num m e => some ((m : ℚ) * (10 : ℚ) ^ e)
  | _ => none

/-- Strip an optional leading sign, returning whether it was a minus. -/
def signSplit (cs : List Char) : Bool × List Char :=
  match cs with
  | [] => (false, [])
  | c :: r => if c = '-' then (true, r) else if c = '+' then (false, r) else (false, c :: r)

/-- Does the input start with the literal Infinity accepted by parseFloat? -/
def isInfinity (cs : List Char) : Bool := cs.take 8 == ("Infinity").toList

/-- Split an optional fractional part: digits after a leading dot. -/
def fracSplit (cs : List Char) : List Char × List Char :=
  match cs with
  | [] => ([], [])
  | c :: r =>
    if c = '.' then (r.takeWhile Char.isDigit, r.dropWhile Char.isDigit) else ([], c :: r)

/-- Value of an optional exponent part ([eE][+-]?digits); 0 when absent or
incomplete (an incomplete exponent is not part of the parsed prefix). -/
def parseExpVal (cs : List Char) : Int :=
  match cs with
  | [] => 0
  | c :: r =>
    if c = 'e' ∨ c = 'E' then
      if (signSplit r).2.takeWhile Char.isDigit = [] then 0
      else if (signSplit r).1 then -(digitsToNat ((signSplit r).2.takeWhile Char.isDigit) : Int)
      else (digitsToNat ((signSplit r).2.takeWhile Char.isDigit) : Int)
    else 0

/-- JS parseFloat: longest numeric prefix after leading whitespace;
NaN when there is no digit in the significand. -/
def parseFloatL (cs0 : List Char) : JsFloat :=
  let cs1 := cs0.dropWhile isJsWs
  let sp := signSplit cs1
  if isInfinity sp.2 then JsFloat.inf sp.1
  else
    let ds := sp.2.takeWhile Char.isDigit
    let fp := fracSplit (sp.2.dropWhile Char.isDigit)
    if ds = [] ∧ fp.1 = [] then JsFloat.nan
    else
      let m : Int := digitsToNat (ds ++ fp.1)
      JsFloat.num (if sp.1 then -m else m) (parseExpVal fp.2 - fp.1.length)

/-- parseTime of lines 190-195: parseFloat(t.split('-')[0].trim().replace(':', '.')).
split('-')[0] is everything before the first hyphen.  The catch branch of the
source is unreachable for string input (split, trim, replace and parseFloat
do not throw), so a malformed start yields NaN, not 99. -/
def parseTimeL (t : List Char) : JsFloat :=
  parseFloatL (replaceFirstColon (trimL (t.takeWhile (fun c => c != '-'))))

/-- parseTime on a String label. -/
def parseTime (t : String) : JsFloat := parseTimeL t.toList

/-- Sign of the comparison of two exact decimals m1 * 10 ^ e1 and
m2 * 10 ^ e2, computed by rescaling the one with the larger exponent. -/
def decCmp (m1 e1 m2 e2 : Int) : Int :=
  let a := if 0 ≤ e1 - e2 then m1 * 10 ^ (e1 - e2).toNat else m1
  let b := if 0 ≤ e1 - e2 then m2 else m2 * 10 ^ (e2 - e1).toNat
  if a < b then -1 else if a = b then 0 else 1

/-- Sign of the JS subtraction parseTime(a) - parseTime(b) as consumed by the
sort: -1, 0, or 1, where any NaN operand gives 0 (a NaN comparator value is
neither negative nor positive, so the sort treats the pair as tied). -/
def jsFloatSubSign : JsFloat → JsFloat → Int
  | JsFloat.nan, _ => 0
  | JsFloat.inf _, JsFloat.nan => 0
  | JsFloat.num _ _, JsFloat.nan => 0
  | JsFloat.inf n1, JsFloat.inf n2 => if n1 = n2 then 0 else if n1 then -1 else 1
  | JsFloat.inf n, JsFloat.num _ _ => if n then -1 else 1
  | JsFloat.num _ _, JsFloat.inf n => if n then 1 else -1
  | JsFloat.num m1 e1, JsFloat.num m2 e2 => decCmp m1 e1 m2 e2

/-- The time-slot comparator of lines 189-198. -/
def timeCmp (a b : String) : Int := jsFloatSubSign (parseTime a) (parseTime b)

/-- The comparator value is not positive: a may stay no later than b. -/
def timeLE (a b : String) : Prop := timeCmp a b ≤ 0

instance : DecidableRel timeLE := fun _ _ => Int.decLe _ _

/-- Set.prototype.add on the insertion-ordered slot list. -/
def addSlot (acc : List String) (t : String) : List String :=
  if t ∈ acc then acc else acc ++ [t]

/-- Lines 183-186: collect all time-slot labels across all days into the
insertion-ordered Set. -/
def slotsList (s : Schedule) : List String :=
  s.foldl (fun acc d => d.2.foldl (fun a p => addSlot a p.1) acc) []

/-- Lines 189-198: Array.from(timeSlots).sort(comparator). -/
def sortedTimes (s : Schedule) : List String := (slotsList s).insertionSort timeLE

/-- The finite value of a parsed start key (0 for NaN or infinite keys);
only used to state ordering of fully parsed column lists. -/
def qkey (t : String) : ℚ := (jsValue (parseTime t)).getD 0

/-- Does the label t occur as a time-slot key under some day? -/
def appearsSlot (s : Schedule) (t : String) : Bool :=
  s.any (fun d => d.2.any (fun p => p.1 == t))

/-- JS object property lookup on an association list. -/
def lookupStr {β : Type} (l : List (String × β)) (k : String) : Option β :=
  (l.find? (fun p => p.1 == k)).map Prod.snd

/-- The raw stored value schedule[day][slot], when both keys are present. -/
def storedAt (s : Schedule) (day slot : String) : Option String :=
  (lookupStr s day).bind (fun m => lookupStr m slot)

/-- Line 216: data[day][time] || ''.  none models the TypeError that indexing
an undefined data[day] would raise; the inner match models the || fallback
(an empty stored string is falsy and also yields ''). -/
def cellJS (s : Schedule) (day slot : String) : Option String :=
  (lookupStr s day).map (fun m =>
    match lookupStr m slot with
    | some v => if v = "" then "" else v
    | none => "")

/-- Outcome of renderTimetable: the placeholder branch of lines 177-180, or a
table with its row order and column order. -/
inductive RenderResult where
  | placeholder : RenderResult
  | table : List String → List String → RenderResult
deriving DecidableEq

/-- renderTimetable, abstracted to the data it commits to the DOM. -/
def renderTimetable (s : Schedule) : RenderResult :=
  if (daysOf s).length = 0 then RenderResult.placeholder
  else RenderResult.table (sortDays (daysOf s)) (sortedTimes s)

/-- text.replace(/"/g, '""') of line 240: double every double quote. -/
def doubleQuotes : List Char → List Char
  | [] => []
  | c :: cs => if c = '"' then '"' :: '"' :: doubleQuotes cs else c :: doubleQuotes cs

/-- Lines 238-242: wrap in quotes, doubling internal quotes, exactly when the
field contains a comma or a double quote. -/
def escapeField (f : List Char) : List Char :=
  if f.contains ',' || f.contains '"' then '"' :: (doubleQuotes f ++ ['"']) else f

/-- Array.prototype.join(sep). -/
def joinSep (sep : List Char) : List (List Char) → List Char
  | [] => []
  | [x] => x
  | x :: y :: xs => x ++ sep ++ joinSep sep (y :: xs)

/-- rowData.join(',') for one row of already-extracted cell texts. -/
def rowLine (row : List (List Char)) : List Char := joinSep [','] (row.map escapeField)

/-- Lines 231-245: csv += rowData.join(',') + '\n' over all rows. -/
def toCsv (rows : List (List (List Char))) : List Char :=
  rows.foldl (fun csv row => csv ++ rowLine row ++ ['\n']) []

/-- Modelled from the spec: the escaping rule in its own words, a field
wrapped in double quotes with every internal double quote doubled exactly
when the raw text contains a comma or a double quote, otherwise verbatim. -/
def escapeFieldSpec (f : List Char) : List Char :=
  if ',' ∈ f ∨ '"' ∈ f then
    '"' :: ((f.map (fun c => if c = '"' then ['"', '"'] else [c])).flatten ++ ['"'])
  else f

/-- Modelled from the spec: fields joined by commas, rows joined by a single
newline, a trailing newline after the final row (and no output for no rows). -/
def toCsvSpec (rows : List (List (List Char))) : List Char :=
  match rows with
  | [] => []
  | _ => joinSep ['\n'] (rows.map (fun r => joinSep [','] (r.map escapeFieldSpec))) ++ ['\n']

/-- Modelled from the spec's re-parsing procedure: split into
newline-terminated lines (a trailing segment without a newline also counts
as a line). -/
def toLinesAux : List Char → List Char → List (List Char)
  | acc, [] => if acc = [] then [] else [acc.reverse]
  | acc, c :: cs => if c = '\n' then acc.reverse :: toLinesAux [] cs else toLinesAux (c :: acc) cs

/-- The newline-separated lines of a CSV document. -/
def toLines (cs : List Char) : List (List Char) := toLinesAux [] cs

/-- Modelled from the spec's re-parsing procedure: split a line on unquoted
commas, unescaping doubled quotes inside quoted regions. -/
def parseFieldsAux : Bool → List Char → List Char → List (List Char)
  | _, acc, [] => [acc.reverse]
  | true, acc, '"' :: '"' :: cs => parseFieldsAux true ('"' :: acc) cs
  | true, acc, '"' :: cs => parseFieldsAux false acc cs
  | true, acc, c :: cs => parseFieldsAux true (c :: acc) cs
  | false, acc, ',' :: cs => acc.reverse :: parseFieldsAux false [] cs
  | false, acc, '"' :: cs => parseFieldsAux true acc cs
  | false, acc, c :: cs => parseFieldsAux false (c :: acc) cs

/-- The fields of one CSV line. -/
def parseRecord (cs : List Char) : List (List Char) := parseFieldsAux false [] cs

/-- Modelled from the spec: the whole re-parsing procedure. -/
def parseCsv (cs : List Char) : List (List (List Char)) := (toLines cs).map parseRecord

/-- The input of spec Example 1, in JS object key insertion order. -/
def exSchedule1 : Schedule :=
  [("Tuesday", [("9:00 - 10:00", "Math (R1)")]),
   ("Monday", [("10:00 - 11:00", "Phys (R2)")])]

/-- A schedule with one malformed time-slot label listed first. -/
def exSchedule3 : Schedule :=
  [("Monday", [("zz", "X"), ("9:00 - 10:00", "Y")])]

/-- A CSV field containing a newline but neither comma nor quote. -/
def nlField : List Char := ['a', '\n', 'b']

/-! ### Generic facts about the stable sort model -/

/-- orderedInsert only consults the relation between the inserted element and
members of the list. -/
theorem orderedInsert_congr {α : Type} {r r2 : α → α → Prop} [DecidableRel r]
    [DecidableRel r2] {a : α} {l : List α} (h : ∀ b ∈ l, r a b ↔ r2 a b) :
    l.orderedInsert r a = l.orderedInsert r2 a := by
  induction l with
  | nil => rfl
  | cons b t ih =>
    simp only [List.orderedInsert]
    by_cases hb : r a b
    · rw [if_pos hb, if_pos ((h b (by simp)).mp hb)]
    · rw [if_neg hb, if_neg (fun h2 => hb ((h b (by simp)).mpr h2)),
        ih (fun x hx => h x (by simp [hx]))]

/-- insertionSort only consults the relation between members of the list. -/
theorem insertionSort_congr {α : Type} {r r2 : α → α → Prop} [DecidableRel r]
    [DecidableRel r2] :
    ∀ {l : List α}, (∀ a ∈ l, ∀ b ∈ l, (r a b ↔ r2 a b)) →
      l.insertionSort r = l.insertionSort r2 := by
  intro l
  induction l with
  | nil => exact fun _ => rfl
  | cons a t ih =>
    intro h
    simp only [List.insertionSort]
    rw [ih (fun x hx y hy => h x (by simp [hx]) y (by simp [hy]))]
    exact orderedInsert_congr (fun b hb =>
      h a (List.mem_cons_self a t)
        b (List.mem_cons_of_mem a ((List.mem_insertionSort r2).mp hb)))

/-! ### Facts about indexOf and the day ordering -/

/-- jsIndexOf is at least -1. -/
theorem jsIndexOf_ge_neg_one (l : List String) (x : String) : -1 ≤ jsIndexOf l x := by
  induction l with
  | nil => simp [jsIndexOf]
  | cons d ds ih =>
    by_cases hd : d = x
    · simp [jsIndexOf, hd]
    · by_cases hr : jsIndexOf ds x = -1
      · simp [jsIndexOf, hd, hr]
      · simp only [jsIndexOf, if_neg hd, if_neg hr]
        omega

/-- jsIndexOf returns -1 exactly for absent elements. -/
theorem jsIndexOf_eq_neg_one_iff (l : List String) (x : String) :
    jsIndexOf l x = -1 ↔ x ∉ l := by
  induction l with
  | nil => simp [jsIndexOf]
  | cons d ds ih =>
    by_cases hd : d = x
    · subst hd; simp [jsIndexOf]
    · by_cases hr : jsIndexOf ds x = -1
      · simp [jsIndexOf, hd, hr, Ne.symm hd, ih.mp hr]
      · have hge := jsIndexOf_ge_neg_one ds x
        have hx : x ∈ ds := by
          by_contra hxx
          exact hr (ih.mpr hxx)
        simp only [jsIndexOf, if_neg hd, if_neg hr, List.mem_cons]
        constructor
        · intro he; omega
        · intro he; exact absurd (Or.inr hx) he

/-- jsIndexOf is nonnegative exactly for present elements. -/
theorem jsIndexOf_nonneg_iff (l : List String) (x : String) :
    0 ≤ jsIndexOf l x ↔ x ∈ l := by
  have h1 := jsIndexOf_eq_neg_one_iff l x
  have h2 := jsIndexOf_ge_neg_one l x
  constructor
  · intro h
    by_contra hx
    have := h1.mpr hx
    omega
  · intro h
    have : jsIndexOf l x ≠ -1 := fun he => (h1.mp he) h
    omega

/-- A day name is unknown when it is not in the canonical weekday list. -/
def unknownDay (d : String) : Bool := decide (d ∉ dayOrder)

/-- Claim C1 (amended): sorting the day keys never drops a day, every day
name absent from the canonical list is placed before every recognized day
(dayOrder.indexOf gives such names the key -1, smaller than every canonical
index), and ties among unrecognized names keep their original relative
order. -/
theorem claim1_theorem (days : List String) :
    List.Perm (sortDays days) days ∧
    (sortDays days).Pairwise (fun a b => a ∈ dayOrder → b ∈ dayOrder) ∧
    (sortDays days).filter unknownDay = days.filter unknownDay := by
  haveI : IsTotal String dayLE := ⟨fun a b => by unfold dayLE; omega⟩
  haveI : IsTrans String dayLE := ⟨fun a b c h1 h2 => by
    unfold dayLE at h1 h2 ⊢; omega⟩
  refine ⟨List.perm_insertionSort dayLE days, ?_, ?_⟩
  · have hs : (sortDays days).Pairwise dayLE := List.sorted_insertionSort dayLE days
    refine hs.imp ?_
    intro a b hab hmem
    have ha : 0 ≤ dayIdx a := (jsIndexOf_nonneg_iff dayOrder a).mpr hmem
    have hb : 0 ≤ dayIdx b := by unfold dayLE at hab; omega
    exact (jsIndexOf_nonneg_iff dayOrder b).mp hb
  · have hall : ∀ x ∈ days.filter unknownDay, dayIdx x = -1 := by
      intro x hx
      have hu : unknownDay x = true := (List.mem_filter.mp hx).2
      have hxmem : x ∉ dayOrder := by simpa [unknownDay] using hu
      exact (jsIndexOf_eq_neg_one_iff dayOrder x).mpr hxmem
    have hpw : (days.filter unknownDay).Pairwise dayLE :=
      List.pairwise_of_forall_mem_list (fun a ha b hb => by
        have h1 := hall a ha
        have h2 := hall b hb
        unfold dayLE
        omega)
    have hsub : List.Sublist (days.filter unknownDay) (sortDays days) :=
      List.sublist_insertionSort hpw (List.filter_sublist days)
    have hself : (days.filter unknownDay).filter unknownDay = days.filter unknownDay :=
      List.filter_eq_self.mpr (fun a ha => (List.mem_filter.mp ha).2)
    have hsub2 : List.Sublist (days.filter unknownDay) ((sortDays days).filter unknownDay) := by
      have := hsub.filter unknownDay
      rwa [hself] at this
    have hlen : ((sortDays days).filter unknownDay).length = (days.filter unknownDay).length :=
      ((List.perm_insertionSort dayLE days).filter unknownDay).length_eq
    exact (hsub2.eq_of_length hlen.symm).symm

/-- Claim C1 fails as stated: at the concrete key list [Monday, Funday] the
unrecognized name Funday is sorted before the recognized Monday, not after
every recognized day. -/
theorem claim1_counterexample :
    sortDays ["Monday", "Funday"] = ["Funday", "Monday"] ∧
    "Funday" ∉ dayOrder ∧ "Monday" ∈ dayOrder := by
  refine ⟨by decide, by decide, by decide⟩


/-- Claim C2 fails as stated: on spec Example 1 the column order is not
["10:00 - 11:00", "9:00 - 10:00"] (the computed start keys are 9.00 and
10.00 and the sort is ascending), though the row order [Monday, Tuesday]
does hold. -/
theorem claim2_counterexample :
    sortedTimes exSchedule1 ≠ ["10:00 - 11:00", "9:00 - 10:00"] ∧
    sortDays (daysOf exSchedule1) = ["Monday", "Tuesday"] :=
  ⟨by decide, by decide⟩

/-- Claim C2 (amended): on spec Example 1 the row order is [Monday, Tuesday]
and the column order is ["9:00 - 10:00", "10:00 - 11:00"]: the decimal-append
keys are 9.00 and 10.00, so the 9 o clock slot still sorts first. -/
theorem claim2_theorem :
    sortDays (daysOf exSchedule1) = ["Monday", "Tuesday"] ∧
    sortedTimes exSchedule1 = ["9:00 - 10:00", "10:00 - 11:00"] :=
  ⟨by decide, by decide⟩

/-- Claim C3 evaluated on the failing input: the malformed label "zz" parses
to NaN (the catch-branch sentinel 99 of the source is unreachable because
split/trim/replace/parseFloat do not throw), every comparator application
against NaN is a tie, and the stable sort therefore leaves "zz" first,
before the well-formed label, not last. -/
theorem claim3_theorem :
    parseTime ("zz") = JsFloat.nan ∧
    (∀ x, jsFloatSubSign JsFloat.nan x = 0) ∧
    sortedTimes exSchedule3 = ["zz", "9:00 - 10:00"] :=
  ⟨by decide, fun x => rfl, by decide⟩

/-! ### The slot set -/

/-- Membership in the Set.add model. -/
theorem mem_addSlot {acc : List String} {x t : String} :
    t ∈ addSlot acc x ↔ t ∈ acc ∨ t = x := by
  unfold addSlot
  by_cases h : x ∈ acc
  · rw [if_pos h]
    constructor
    · exact Or.inl
    · rintro (h1 | rfl)
      · exact h1
      · exact h
  · rw [if_neg h]
    simp [List.mem_append]

/-- The Set.add model preserves distinctness. -/
theorem nodup_addSlot {acc : List String} {x : String} (h : acc.Nodup) :
    (addSlot acc x).Nodup := by
  unfold addSlot
  by_cases hx : x ∈ acc
  · simpa [hx]
  · simp [hx, List.nodup_append, h]

/-- Membership after folding one day of slots into the accumulator. -/
theorem mem_slotFold (ps : List (String × String)) :
    ∀ acc t, (t ∈ ps.foldl (fun a p => addSlot a p.1) acc ↔
      t ∈ acc ∨ ∃ p ∈ ps, p.1 = t) := by
  induction ps with
  | nil => simp
  | cons q qs ih =>
    intro acc t
    simp only [List.foldl_cons]
    rw [ih, mem_addSlot]
    constructor
    · rintro ((h1 | h2) | ⟨p, hp, hq⟩)
      · exact Or.inl h1
      · exact Or.inr ⟨q, List.mem_cons_self q qs, h2.symm⟩
      · exact Or.inr ⟨p, List.mem_cons_of_mem q hp, hq⟩
    · rintro (h1 | ⟨p, hp, hq⟩)
      · exact Or.inl (Or.inl h1)
      · rcases List.mem_cons.mp hp with rfl | hp2
        · exact Or.inl (Or.inr hq.symm)
        · exact Or.inr ⟨p, hp2, hq⟩

/-- Distinctness after folding one day of slots. -/
theorem nodup_slotFold (ps : List (String × String)) :
    ∀ acc, List.Nodup acc → List.Nodup (ps.foldl (fun a p => addSlot a p.1) acc) := by
  induction ps with
  | nil => intro acc h; simpa using h
  | cons q qs ih => intro acc h; exact ih _ (nodup_addSlot h)

/-- Membership after folding the whole schedule. -/
theorem mem_slotsFold (s : Schedule) :
    ∀ acc t, (t ∈ s.foldl (fun acc d => d.2.foldl (fun a p => addSlot a p.1) acc) acc ↔
      t ∈ acc ∨ ∃ d ∈ s, ∃ p ∈ d.2, p.1 = t) := by
  induction s with
  | nil => simp
  | cons e es ih =>
    intro acc t
    simp only [List.foldl_cons]
    rw [ih, mem_slotFold]
    constructor
    · rintro ((h1 | h2) | ⟨d, hd, hp⟩)
      · exact Or.inl h1
      · exact Or.inr ⟨e, List.mem_cons_self e es, h2⟩
      · exact Or.inr ⟨d, List.mem_cons_of_mem e hd, hp⟩
    · rintro (h1 | ⟨d, hd, hp⟩)
      · exact Or.inl (Or.inl h1)
      · rcases List.mem_cons.mp hd with rfl | hd2
        · exact Or.inl (Or.inr hp)
        · exact Or.inr ⟨d, hd2, hp⟩

/-- The collected slot list has no duplicates. -/
theorem nodup_slotsList (s : Schedule) : (slotsList s).Nodup := by
  have haux : ∀ (es : List (String × List (String × String)))
      (acc : List String), List.Nodup acc →
      List.Nodup (es.foldl (fun acc d => d.2.foldl (fun a p => addSlot a p.1) acc) acc) := by
    intro es
    induction es with
    | nil => intro acc h; simpa using h
    | cons f fs ih2 => intro acc h; exact ih2 _ (nodup_slotFold f.2 acc h)
  exact haux s [] List.nodup_nil

/-- A label is in the slot list exactly when it occurs under some day. -/
theorem mem_slotsList_iff (s : Schedule) (t : String) :
    t ∈ slotsList s ↔ appearsSlot s t = true := by
  unfold slotsList
  rw [mem_slotsFold]
  simp [appearsSlot, List.any_eq_true]

/-- Claim C7: the canonical column list contains every time-slot label that
appears under any day exactly once, and labels that never appear zero
times. -/
theorem claim7_theorem (s : Schedule) (t : String) :
    (sortedTimes s).count t = if appearsSlot s t then 1 else 0 := by
  have hperm : List.Perm (sortedTimes s) (slotsList s) :=
    List.perm_insertionSort timeLE (slotsList s)
  rw [hperm.count_eq]
  by_cases h : appearsSlot s t = true
  · rw [if_pos h]
    exact List.count_eq_one_of_mem (nodup_slotsList s) ((mem_slotsList_iff s t).mpr h)
  · rw [if_neg h]
    exact List.count_eq_zero_of_not_mem (fun hm => h ((mem_slotsList_iff s t).mp hm))

/-- Claim C8: for a day present in the row order and any slot label, the
cell lookup yields a string, the stored label when present and the empty
string when absent, with no exception. -/
theorem claim8_theorem (s : Schedule) (day slot : String)
    (h : day ∈ sortDays (daysOf s)) :
    cellJS s day slot = some ((storedAt s day slot).getD "") := by
  have hmem : day ∈ daysOf s := (List.mem_insertionSort dayLE).mp h
  obtain ⟨m, hm⟩ : ∃ m, lookupStr s day = some m := by
    rcases List.mem_map.mp hmem with ⟨e, he, hfst⟩
    have h2 : (s.find? (fun p => p.1 == day)).isSome := by
      rw [List.find?_isSome]
      exact ⟨e, he, by simp [hfst]⟩
    rcases Option.isSome_iff_exists.mp h2 with ⟨p, hp⟩
    exact ⟨p.2, by simp [lookupStr, hp]⟩
  unfold cellJS storedAt
  rw [hm]
  cases hv : lookupStr m slot with
  | none => simp [hv]
  | some v =>
    by_cases hve : v = ""
    · simp [hv, hve]
    · simp [hv, hve]

/-- Claim C8 at a concrete point: Monday lacks the 9 o clock slot present on
Tuesday, and the cell is the empty string, not an error. -/
theorem claim8_witness :
    cellJS exSchedule1 ("Monday") ("9:00 - 10:00") = some "" := by
  rw [claim8_theorem exSchedule1 ("Monday") ("9:00 - 10:00") (by decide)]
  decide

/-- Claim C9: a mapping with zero day keys renders the placeholder, the grid
has no rows and no columns, and the placeholder outcome is distinct from
every table outcome. -/
theorem claim9_theorem (s : Schedule) (h : (daysOf s).length = 0) :
    renderTimetable s = RenderResult.placeholder ∧
    sortDays (daysOf s) = [] ∧ sortedTimes s = [] ∧
    (∀ r c, renderTimetable s ≠ RenderResult.table r c) := by
  have hnil : s = [] := by
    cases s with
    | nil => rfl
    | cons a t => simp [daysOf] at h
  subst hnil
  refine ⟨rfl, rfl, rfl, ?_⟩
  intro r c hc
  simp [renderTimetable, daysOf] at hc

/-- Claim C9 at the concrete empty mapping. -/
theorem claim9_witness :
    renderTimetable ([] : Schedule) = RenderResult.placeholder ∧
    sortDays (daysOf ([] : Schedule)) = [] ∧ sortedTimes ([] : Schedule) = [] ∧
    (∀ r c, renderTimetable ([] : Schedule) ≠ RenderResult.table r c) :=
  claim9_theorem [] (by decide)


/-! ### CSV serialization -/

/-- contains is decidable membership. -/
theorem contains_eq_decide_mem (f : List Char) (a : Char) :
    f.contains a = decide (a ∈ f) := by
  simp [List.contains]

/-- The foldl of toCsv is a flatten of newline-terminated lines. -/
theorem toCsv_eq_flatten (rows : List (List (List Char))) :
    toCsv rows = (rows.map (fun r => rowLine r ++ ['\n'])).flatten := by
  have haux : ∀ (rs : List (List (List Char))) (init : List Char),
      rs.foldl (fun csv row => csv ++ rowLine row ++ ['\n']) init =
        init ++ (rs.map (fun r => rowLine r ++ ['\n'])).flatten := by
    intro rs
    induction rs with
    | nil => intro init; simp
    | cons r t ih =>
      intro init
      simp only [List.foldl_cons, List.map_cons, List.flatten_cons, ih]
      simp [List.append_assoc]
  simpa [toCsv] using haux rows []

/-- doubleQuotes agrees with the per-character spec description. -/
theorem doubleQuotes_eq_spec (f : List Char) :
    doubleQuotes f = (f.map (fun c => if c = '"' then ['"', '"'] else [c])).flatten := by
  induction f with
  | nil => rfl
  | cons c cs ih =>
    by_cases hc : c = '"'
    · simp [doubleQuotes, hc, ih]
    · simp [doubleQuotes, hc, ih]

/-- The source escaping agrees with the spec escaping, field by field. -/
theorem escapeField_eq_spec : escapeField = escapeFieldSpec := by
  funext f
  unfold escapeField escapeFieldSpec
  by_cases h : ',' ∈ f ∨ '"' ∈ f
  · rw [if_pos h, if_pos (by simp [contains_eq_decide_mem, h]), doubleQuotes_eq_spec]
  · rw [if_neg h, if_neg (by simp [contains_eq_decide_mem]; tauto)]

/-- Flattening newline-terminated lines is joining by newlines plus a final
newline, for at least one line. -/
theorem flatten_newline_eq_joinSep (ls : List (List Char)) (h : ls ≠ []) :
    (ls.map (fun l => l ++ ['\n'])).flatten = joinSep ['\n'] ls ++ ['\n'] := by
  induction ls with
  | nil => exact absurd rfl h
  | cons x xs ih =>
    cases xs with
    | nil => simp [joinSep]
    | cons y ys =>
      calc (List.map (fun l => l ++ ['\n']) (x :: y :: ys)).flatten
          = (x ++ ['\n']) ++ (List.map (fun l => l ++ ['\n']) (y :: ys)).flatten := by
            simp
        _ = (x ++ ['\n']) ++ (joinSep ['\n'] (y :: ys) ++ ['\n']) := by
            rw [ih (List.cons_ne_nil y ys)]
        _ = joinSep ['\n'] (x :: y :: ys) ++ ['\n'] := by
            simp [joinSep, List.append_assoc]

/-- toCsv of at least one row: lines joined by newlines plus a final one. -/
theorem toCsv_lines (rows : List (List (List Char))) (h : rows ≠ []) :
    toCsv rows = joinSep ['\n'] (rows.map rowLine) ++ ['\n'] := by
  rw [toCsv_eq_flatten]
  have hm : rows.map (fun r => rowLine r ++ ['\n']) =
      (rows.map rowLine).map (fun l => l ++ ['\n']) := by
    rw [List.map_map]; rfl
  rw [hm, flatten_newline_eq_joinSep _ (by simpa using h)]

/-- Claim C5: the CSV serializer quotes (doubling internal quotes) exactly
the fields containing a comma or a double quote, joins fields with commas
and rows with single newlines, and ends with a trailing newline; spec
Example 4 is evaluated concretely. -/
theorem claim5_theorem :
    (∀ rows, toCsv rows = toCsvSpec rows) ∧
    toCsv [[("Room \"B\"").toList]] = ("\"Room \"\"B\"\"\"\n").toList := by
  constructor
  · intro rows
    cases rows with
    | nil => rfl
    | cons r rs =>
      rw [toCsv_lines _ (List.cons_ne_nil r rs)]
      have hrl : rowLine = (fun q => joinSep [','] (q.map escapeFieldSpec)) := by
        funext q
        unfold rowLine
        rw [escapeField_eq_spec]
      rw [hrl]
      rfl
  · decide


/-! ### Equations of the field parser -/

/-- Parser equation: end of line emits the pending field. -/
theorem pfa_nil (inQ : Bool) (acc : List Char) :
    parseFieldsAux inQ acc [] = [acc.reverse] := by
  cases inQ <;> rfl

/-- Parser equation: a doubled quote in a quoted region unescapes. -/
theorem pfa_true_qq (acc cs : List Char) :
    parseFieldsAux true acc ('"' :: '"' :: cs) = parseFieldsAux true ('"' :: acc) cs := rfl

/-- Parser equation: an unquoted comma ends the pending field. -/
theorem pfa_false_comma (acc cs : List Char) :
    parseFieldsAux false acc (',' :: cs) = acc.reverse :: parseFieldsAux false [] cs := rfl

/-- Parser equation: a quote at field level opens a quoted region. -/
theorem pfa_false_quote (acc cs : List Char) :
    parseFieldsAux false acc ('"' :: cs) = parseFieldsAux true acc cs := rfl

/-- Parser equation: a single quote not followed by a quote closes the
quoted region. -/
theorem pfa_true_close (acc rest : List Char) (h : rest.head? ≠ some '"') :
    parseFieldsAux true acc ('"' :: rest) = parseFieldsAux false acc rest := by
  cases rest with
  | nil => rfl
  | cons d ds =>
    have hd : d ≠ '"' := by simpa using h
    rw [parseFieldsAux.eq_def]
    split
    all_goals (try simp_all)
    all_goals (rename_i hne heq; exact absurd heq.1.symm hne)

/-- Parser equation: ordinary characters in a quoted region accumulate. -/
theorem pfa_true_other (acc cs : List Char) (c : Char) (h : c ≠ '"') :
    parseFieldsAux true acc (c :: cs) = parseFieldsAux true (c :: acc) cs := by
  rw [parseFieldsAux.eq_def]
  split
  all_goals simp_all

/-- Parser equation: ordinary characters at field level accumulate. -/
theorem pfa_false_other (acc cs : List Char) (c : Char) (h1 : c ≠ ',') (h2 : c ≠ '"') :
    parseFieldsAux false acc (c :: cs) = parseFieldsAux false (c :: acc) cs := by
  rw [parseFieldsAux.eq_def]
  split
  all_goals simp_all

/-- The parser passes over a field without commas or quotes. -/
theorem passPlain (f : List Char) :
    ∀ (acc rest : List Char), (∀ c ∈ f, c ≠ ',' ∧ c ≠ '"') →
      parseFieldsAux false acc (f ++ rest) = parseFieldsAux false (f.reverse ++ acc) rest := by
  induction f with
  | nil => intro acc rest h; simp
  | cons c cs ih =>
    intro acc rest h
    have hc := h c (List.mem_cons_self c cs)
    rw [List.cons_append, pfa_false_other acc (cs ++ rest) c hc.1 hc.2,
      ih (c :: acc) rest (fun x hx => h x (List.mem_cons_of_mem c hx))]
    simp

/-- The parser passes over a quote-doubled field inside a quoted region and
leaves it at the closing quote. -/
theorem passQuoted (f : List Char) :
    ∀ (acc rest : List Char), rest.head? ≠ some '"' →
      parseFieldsAux true acc (doubleQuotes f ++ '"' :: rest) =
        parseFieldsAux false (f.reverse ++ acc) rest := by
  induction f with
  | nil =>
    intro acc rest h
    simpa using pfa_true_close acc rest h
  | cons c cs ih =>
    intro acc rest h
    by_cases hc : c = '"'
    · subst hc
      rw [show doubleQuotes ('"' :: cs) = '"' :: '"' :: doubleQuotes cs from by
          simp [doubleQuotes]]
      rw [List.cons_append, List.cons_append, pfa_true_qq, ih ('"' :: acc) rest h]
      simp
    · rw [show doubleQuotes (c :: cs) = c :: doubleQuotes cs from by
          simp [doubleQuotes, hc]]
      rw [List.cons_append, pfa_true_other _ _ c hc, ih (c :: acc) rest h]
      simp

/-- Parsing one serialized line recovers its fields. -/
theorem parseRecord_rowLine (fs : List (List Char)) :
    ∀ f : List Char, parseRecord (rowLine (f :: fs)) = f :: fs := by
  induction fs with
  | nil =>
    intro f
    unfold parseRecord rowLine
    simp only [List.map_cons, List.map_nil]
    show parseFieldsAux false [] (joinSep [','] [escapeField f]) = [f]
    rw [show joinSep [','] [escapeField f] = escapeField f from rfl]
    by_cases h : (f.contains ',' || f.contains '"') = true
    · rw [show escapeField f = '"' :: (doubleQuotes f ++ ['"']) from by
        unfold escapeField; rw [if_pos h]]
      rw [pfa_false_quote]
      rw [show doubleQuotes f ++ ['"'] = doubleQuotes f ++ '"' :: [] from rfl]
      rw [passQuoted f [] [] (by simp)]
      simp [pfa_nil]
    · rw [show escapeField f = f from by unfold escapeField; rw [if_neg h]]
      have hch : ∀ c ∈ f, c ≠ ',' ∧ c ≠ '"' := by
        intro c hcm
        simp only [contains_eq_decide_mem, Bool.or_eq_true, decide_eq_true_iff] at h
        push_neg at h
        constructor
        · intro hce; exact h.1 (hce ▸ hcm)
        · intro hce; exact h.2 (hce ▸ hcm)
      have hpp := passPlain f [] [] hch
      simp only [List.append_nil] at hpp
      rw [hpp, pfa_nil]
      simp
  | cons g gs ih =>
    intro f
    unfold parseRecord rowLine
    simp only [List.map_cons]
    show parseFieldsAux false []
        (joinSep [','] (escapeField f :: escapeField g :: gs.map escapeField)) = f :: g :: gs
    rw [show joinSep [','] (escapeField f :: escapeField g :: gs.map escapeField) =
        escapeField f ++ ',' :: joinSep [','] (escapeField g :: gs.map escapeField) from by
      simp [joinSep]]
    have hgs : parseFieldsAux false []
        (joinSep [','] (escapeField g :: gs.map escapeField)) = g :: gs := by
      have hg := ih g
      unfold parseRecord rowLine at hg
      simp only [List.map_cons] at hg
      exact hg
    by_cases h : (f.contains ',' || f.contains '"') = true
    · rw [show escapeField f = '"' :: (doubleQuotes f ++ ['"']) from by
        unfold escapeField; rw [if_pos h]]
      rw [List.cons_append, pfa_false_quote]
      rw [show (doubleQuotes f ++ ['"']) ++
          ',' :: joinSep [','] (escapeField g :: gs.map escapeField) =
          doubleQuotes f ++ '"' :: ',' :: joinSep [','] (escapeField g :: gs.map escapeField) from by
        simp]
      rw [passQuoted f [] _ (by simp)]
      rw [show (f.reverse ++ [] : List Char) = f.reverse from by simp]
      rw [pfa_false_comma, hgs]
      simp
    · rw [show escapeField f = f from by unfold escapeField; rw [if_neg h]]
      have hch : ∀ c ∈ f, c ≠ ',' ∧ c ≠ '"' := by
        intro c hcm
        simp only [contains_eq_decide_mem, Bool.or_eq_true, decide_eq_true_iff] at h
        push_neg at h
        constructor
        · intro hce; exact h.1 (hce ▸ hcm)
        · intro hce; exact h.2 (hce ▸ hcm)
      rw [passPlain f [] _ hch]
      rw [show (f.reverse ++ [] : List Char) = f.reverse from by simp]
      rw [pfa_false_comma, hgs]
      simp

/-! ### Line splitting -/

/-- The line splitter passes over newline-free text up to a newline. -/
theorem tla_skip (l : List Char) :
    ∀ (acc rest : List Char), (∀ c ∈ l, c ≠ '\n') →
      toLinesAux acc (l ++ '\n' :: rest) = (acc.reverse ++ l) :: toLinesAux [] rest := by
  induction l with
  | nil => intro acc rest h; simp [toLinesAux]
  | cons c cs ih =>
    intro acc rest h
    have hc : c ≠ '\n' := h c (List.mem_cons_self c cs)
    rw [List.cons_append]
    rw [show toLinesAux acc (c :: (cs ++ '\n' :: rest)) =
        toLinesAux (c :: acc) (cs ++ '\n' :: rest) from by simp [toLinesAux, hc]]
    rw [ih (c :: acc) rest (fun x hx => h x (List.mem_cons_of_mem c hx))]
    simp

/-- Splitting a flattening of newline-terminated newline-free lines recovers
the lines. -/
theorem toLines_flatten (rows : List (List Char))
    (h : ∀ r ∈ rows, ∀ c ∈ r, c ≠ '\n') :
    toLines ((rows.map (fun r => r ++ ['\n'])).flatten) = rows := by
  induction rows with
  | nil => rfl
  | cons r rs ih =>
    unfold toLines
    simp only [List.map_cons, List.flatten_cons]
    rw [show (r ++ ['\n']) ++ (rs.map (fun q => q ++ ['\n'])).flatten =
        r ++ '\n' :: (rs.map (fun q => q ++ ['\n'])).flatten from by simp]
    rw [tla_skip r [] _ (h r (List.mem_cons_self r rs))]
    have hih := ih (fun q hq => h q (List.mem_cons_of_mem r hq))
    unfold toLines at hih
    rw [hih]
    simp

/-! ### No newline is introduced by escaping -/

/-- Characters of doubleQuotes f come from f. -/
theorem mem_doubleQuotes {c : Char} {f : List Char} (h : c ∈ doubleQuotes f) :
    c ∈ f := by
  induction f with
  | nil => simp [doubleQuotes] at h
  | cons d ds ih =>
    by_cases hd : d = '"'
    · rw [show doubleQuotes (d :: ds) = '"' :: '"' :: doubleQuotes ds from by
        simp [doubleQuotes, hd]] at h
      rcases List.mem_cons.mp h with h1 | h1
      · rw [hd]
        simp [h1]
      · rcases List.mem_cons.mp h1 with h2 | h2
        · rw [hd]
          simp [h2]
        · exact List.mem_cons_of_mem _ (ih h2)
    · rw [show doubleQuotes (d :: ds) = d :: doubleQuotes ds from by
        simp [doubleQuotes, hd]] at h
      rcases List.mem_cons.mp h with h1 | h1
      · simp [h1]
      · exact List.mem_cons_of_mem _ (ih h1)

/-- Characters of an escaped field come from the field or are quotes. -/
theorem mem_escapeField {c : Char} {f : List Char} (h : c ∈ escapeField f) :
    c ∈ f ∨ c = '"' := by
  unfold escapeField at h
  by_cases hc : (f.contains ',' || f.contains '"') = true
  · rw [if_pos hc] at h
    rcases List.mem_cons.mp h with h1 | h1
    · exact Or.inr h1
    · rcases List.mem_append.mp h1 with h2 | h2
      · exact Or.inl (mem_doubleQuotes h2)
      · exact Or.inr (by simpa using h2)
  · rw [if_neg hc] at h
    exact Or.inl h

/-- Characters of a joined list come from the parts or the separator. -/
theorem mem_joinSep {c : Char} {sep : List Char} :
    ∀ {ls : List (List Char)}, c ∈ joinSep sep ls → (∃ l ∈ ls, c ∈ l) ∨ c ∈ sep := by
  intro ls
  induction ls with
  | nil => intro h; simp [joinSep] at h
  | cons x xs ih =>
    cases xs with
    | nil =>
      intro h
      rw [show joinSep sep [x] = x from rfl] at h
      exact Or.inl ⟨x, by simp, h⟩
    | cons y ys =>
      intro h
      rw [show joinSep sep (x :: y :: ys) = x ++ sep ++ joinSep sep (y :: ys) from rfl] at h
      rcases List.mem_append.mp h with h1 | h1
      · rcases List.mem_append.mp h1 with h2 | h2
        · exact Or.inl ⟨x, by simp, h2⟩
        · exact Or.inr h2
      · rcases ih h1 with ⟨l, hl, hcl⟩ | h2
        · exact Or.inl ⟨l, List.mem_cons_of_mem x hl, hcl⟩
        · exact Or.inr h2

/-- A serialized line of newline-free fields is newline-free. -/
theorem rowLine_no_newline {row : List (List Char)} (h : ∀ f ∈ row, '\n' ∉ f) :
    ∀ c ∈ rowLine row, c ≠ '\n' := by
  intro c hc hceq
  subst hceq
  unfold rowLine at hc
  rcases mem_joinSep hc with ⟨l, hl, hcl⟩ | hsep
  · rcases List.mem_map.mp hl with ⟨f, hf, rfl⟩
    rcases mem_escapeField hcl with h1 | h1
    · exact h f hf h1
    · exact absurd h1 (by decide)
  · exact absurd hsep (by decide)

/-- Claim C6 (amended): re-parsing the produced CSV reconstructs the
original fields for every sequence of nonempty rows whose fields contain no
newline character (an unquoted newline inside a field, or a row with zero
fields, breaks the round trip). -/
theorem claim6_theorem (rows : List (List (List Char)))
    (h : ∀ r ∈ rows, r ≠ [] ∧ ∀ f ∈ r, '\n' ∉ f) :
    parseCsv (toCsv rows) = rows := by
  unfold parseCsv
  rw [toCsv_eq_flatten]
  have hmm : rows.map (fun r => rowLine r ++ ['\n']) =
      (rows.map rowLine).map (fun l => l ++ ['\n']) := by
    rw [List.map_map]; rfl
  have hnl : ∀ l ∈ rows.map rowLine, ∀ c ∈ l, c ≠ '\n' := by
    intro l hl
    rcases List.mem_map.mp hl with ⟨r, hr, rfl⟩
    exact rowLine_no_newline (h r hr).2
  rw [hmm, toLines_flatten _ hnl]
  have hfin : ∀ rs : List (List (List Char)), (∀ r ∈ rs, r ≠ []) →
      (rs.map rowLine).map parseRecord = rs := by
    intro rs hrs
    induction rs with
    | nil => rfl
    | cons r rt ih2 =>
      simp only [List.map_cons]
      rw [ih2 (fun q hq => hrs q (List.mem_cons_of_mem r hq))]
      have hhead : parseRecord (rowLine r) = r := by
        cases r with
        | nil => exact absurd rfl (hrs _ (List.mem_cons_self _ rt))
        | cons f fs => exact parseRecord_rowLine fs f
      rw [hhead]
  exact hfin rows (fun r hr => (h r hr).1)

/-- Claim C6 fails as stated: a field containing a raw newline (emitted
verbatim since it has no comma and no quote) splits into two rows on
re-parsing, and a row with zero fields re-parses as one empty field. -/
theorem claim6_counterexample :
    parseCsv (toCsv [[nlField]]) ≠ [[nlField]] ∧
    parseCsv (toCsv [([] : List (List Char))]) ≠ [([] : List (List Char))] :=
  ⟨by decide, by decide⟩

/-- Claim C6 at a concrete table with a comma field and a quoted field. -/
theorem claim6_witness :
    parseCsv (toCsv [[("Day").toList, ("10:00 - 11:00").toList],
        [("Monday").toList, ("Math, Sec A").toList],
        [("Tuesday").toList, ("Room \"B\"").toList]]) =
      [[("Day").toList, ("10:00 - 11:00").toList],
        [("Monday").toList, ("Math, Sec A").toList],
        [("Tuesday").toList, ("Room \"B\"").toList]] :=
  claim6_theorem _ (by decide)

/-- Claim C10: a field holding a newline but neither comma nor quote is
emitted verbatim and unquoted, the output has two newline-terminated lines
for one input row, and re-parsing by newline splitting cannot recover the
field. -/
theorem claim10_theorem :
    nlField.contains '\n' = true ∧
    nlField.contains ',' = false ∧
    nlField.contains '"' = false ∧
    escapeField nlField = nlField ∧
    toCsv [[nlField]] = ['a', '\n', 'b', '\n'] ∧
    (toLines (toCsv [[nlField]])).length = 2 ∧
    ([[nlField]] : List (List (List Char))).length = 1 ∧
    parseCsv (toCsv [[nlField]]) ≠ [[nlField]] := by
  decide


/-! ### Character and scanning helpers for the time parser -/

/-- A digit character differs from any non-digit character. -/
theorem ne_of_digit_of_not (c y : Char) (h : c.isDigit = true) (hy : y.isDigit = false) :
    c ≠ y := fun he => by rw [he, hy] at h; cases h

/-- Digits are not JS whitespace. -/
theorem ws_false_of_digit (c : Char) (h : c.isDigit = true) : isJsWs c = false := by
  unfold isJsWs
  simp [Bool.or_eq_false_iff, beq_eq_false_iff_ne,
    ne_of_digit_of_not c ' ' h (by decide),
    ne_of_digit_of_not c '\t' h (by decide),
    ne_of_digit_of_not c '\n' h (by decide),
    ne_of_digit_of_not c '\r' h (by decide),
    ne_of_digit_of_not c '\u000B' h (by decide),
    ne_of_digit_of_not c '\u000C' h (by decide),
    ne_of_digit_of_not c '\u00A0' h (by decide),
    ne_of_digit_of_not c '\uFEFF' h (by decide),
    ne_of_digit_of_not c '\u2028' h (by decide),
    ne_of_digit_of_not c '\u2029' h (by decide)]

/-- takeWhile passes over a block of satisfying elements. -/
theorem takeWhile_append_all {p : Char → Bool} (l : List Char) :
    ∀ r, (∀ c ∈ l, p c = true) → (l ++ r).takeWhile p = l ++ r.takeWhile p := by
  induction l with
  | nil => intro r h; simp
  | cons c cs ih =>
    intro r h
    rw [List.cons_append, List.takeWhile_cons_of_pos (h c (List.mem_cons_self c cs)),
      ih r (fun x hx => h x (List.mem_cons_of_mem c hx))]
    simp

/-- dropWhile drops a block of satisfying elements. -/
theorem dropWhile_append_all {p : Char → Bool} (l : List Char) :
    ∀ r, (∀ c ∈ l, p c = true) → (l ++ r).dropWhile p = r.dropWhile p := by
  induction l with
  | nil => intro r h; simp
  | cons c cs ih =>
    intro r h
    rw [List.cons_append, List.dropWhile_cons_of_pos (h c (List.mem_cons_self c cs)),
      ih r (fun x hx => h x (List.mem_cons_of_mem c hx))]

/-- takeWhile keeps an all-satisfying list. -/
theorem takeWhile_all {p : Char → Bool} (l : List Char) (h : ∀ c ∈ l, p c = true) :
    l.takeWhile p = l := by
  have := takeWhile_append_all l [] h
  simpa using this

/-- dropWhile empties an all-satisfying list. -/
theorem dropWhile_all {p : Char → Bool} (l : List Char) (h : ∀ c ∈ l, p c = true) :
    l.dropWhile p = [] := by
  have := dropWhile_append_all l [] h
  simpa using this

/-- replace(Ꞌ:Ꞌ, Ꞌ.Ꞌ) rewrites the first colon after a colon-free block. -/
theorem replaceFirstColon_append (l : List Char) :
    ∀ r, (∀ c ∈ l, c ≠ ':') → replaceFirstColon (l ++ ':' :: r) = l ++ '.' :: r := by
  induction l with
  | nil => intro r h; simp [replaceFirstColon]
  | cons c cs ih =>
    intro r h
    rw [List.cons_append,
      show replaceFirstColon (c :: (cs ++ ':' :: r)) =
        c :: replaceFirstColon (cs ++ ':' :: r) from by
        simp [replaceFirstColon, h c (List.mem_cons_self c cs)],
      ih r (fun x hx => h x (List.mem_cons_of_mem c hx))]
    rfl

/-- The numeric value of digits folded from an arbitrary accumulator. -/
theorem digitsToNat_aux (l : List Char) :
    ∀ n : Nat, l.foldl (fun n c => 10 * n + (c.toNat - 48)) n =
      n * 10 ^ l.length + digitsToNat l := by
  induction l with
  | nil => intro n; simp [digitsToNat]
  | cons c cs ih =>
    intro n
    rw [List.foldl_cons, ih (10 * n + (c.toNat - 48))]
    rw [show digitsToNat (c :: cs) =
        cs.foldl (fun n c => 10 * n + (c.toNat - 48)) (c.toNat - 48) from by
      simp [digitsToNat]]
    rw [ih (c.toNat - 48)]
    simp [List.length_cons, Nat.pow_succ]
    ring

/-- The numeric value of concatenated digit blocks. -/
theorem digitsToNat_append (l1 l2 : List Char) :
    digitsToNat (l1 ++ l2) = digitsToNat l1 * 10 ^ l2.length + digitsToNat l2 := by
  show (l1 ++ l2).foldl (fun n c => 10 * n + (c.toNat - 48)) 0 =
    digitsToNat l1 * 10 ^ l2.length + digitsToNat l2
  rw [List.foldl_append]
  exact digitsToNat_aux l2 (digitsToNat l1)

/-- The decimal comparison decCmp is nonpositive exactly when the first
exact value is at most the second. -/
theorem decCmp_le_iff (m1 e1 m2 e2 : Int) :
    decCmp m1 e1 m2 e2 ≤ 0 ↔
      (m1 : ℚ) * (10 : ℚ) ^ e1 ≤ (m2 : ℚ) * (10 : ℚ) ^ e2 := by
  unfold decCmp
  by_cases hd : 0 ≤ e1 - e2
  · rw [if_pos hd, if_pos hd]
    have hiff1 : (if m1 * 10 ^ (e1 - e2).toNat < m2 then (-1 : Int)
        else if m1 * 10 ^ (e1 - e2).toNat = m2 then 0 else 1) ≤ 0 ↔
        m1 * 10 ^ (e1 - e2).toNat ≤ m2 := by
      split_ifs <;> omega
    rw [hiff1]
    have hpos : (0 : ℚ) < (10 : ℚ) ^ e2 := by positivity
    have hexp : ((10 : ℚ) ^ (e1 - e2).toNat) * (10 : ℚ) ^ e2 = (10 : ℚ) ^ e1 := by
      rw [← zpow_natCast (10 : ℚ) (e1 - e2).toNat, Int.toNat_of_nonneg hd,
        ← zpow_add₀ (by norm_num : (10 : ℚ) ≠ 0)]
      congr 1
      omega
    have hL : (m1 : ℚ) * (10 : ℚ) ^ e1 =
        ((m1 * 10 ^ (e1 - e2).toNat : Int) : ℚ) * (10 : ℚ) ^ e2 := by
      push_cast
      rw [mul_assoc, hexp]
    rw [hL, mul_le_mul_right hpos]
    exact Int.cast_le.symm
  · rw [if_neg hd, if_neg hd]
    have hd2 : 0 ≤ e2 - e1 := by omega
    have hiff1 : (if m1 < m2 * 10 ^ (e2 - e1).toNat then (-1 : Int)
        else if m1 = m2 * 10 ^ (e2 - e1).toNat then 0 else 1) ≤ 0 ↔
        m1 ≤ m2 * 10 ^ (e2 - e1).toNat := by
      split_ifs <;> omega
    rw [hiff1]
    have hpos : (0 : ℚ) < (10 : ℚ) ^ e1 := by positivity
    have hexp : ((10 : ℚ) ^ (e2 - e1).toNat) * (10 : ℚ) ^ e1 = (10 : ℚ) ^ e2 := by
      rw [← zpow_natCast (10 : ℚ) (e2 - e1).toNat, Int.toNat_of_nonneg hd2,
        ← zpow_add₀ (by norm_num : (10 : ℚ) ≠ 0)]
      congr 1
      omega
    have hR : (m2 : ℚ) * (10 : ℚ) ^ e2 =
        ((m2 * 10 ^ (e2 - e1).toNat : Int) : ℚ) * (10 : ℚ) ^ e1 := by
      push_cast
      rw [mul_assoc, hexp]
    rw [hR, mul_le_mul_right hpos]
    exact Int.cast_le.symm


/-- A list starting with a non-I character is not an Infinity literal. -/
theorem isInfinity_cons_false (h0 : Char) (t : List Char) (h : h0 ≠ 'I') :
    isInfinity (h0 :: t) = false := by
  unfold isInfinity
  rw [beq_eq_false_iff_ne]
  intro he
  rw [show List.take 8 (h0 :: t) = h0 :: List.take 7 t from rfl,
    show ("Infinity").toList =
      'I' :: ('n' :: 'f' :: 'i' :: 'n' :: 'i' :: 't' :: 'y' :: []) from rfl] at he
  injection he with he1 he2
  exact h he1

/-- trim strips exactly the trailing space of a well-formed start block. -/
theorem trimL_formula (hh mm : List Char) (h1 : hh ≠ []) (h2 : mm ≠ [])
    (h3 : ∀ c ∈ hh, c.isDigit = true) (h4 : ∀ c ∈ mm, c.isDigit = true) :
    trimL (hh ++ ':' :: mm ++ [' ']) = hh ++ ':' :: mm := by
  obtain ⟨h0, hh', rfl⟩ : ∃ a l, hh = a :: l := by
    cases hh with
    | nil => exact absurd rfl h1
    | cons a l => exact ⟨a, l, rfl⟩
  have hw0 : isJsWs h0 = false := ws_false_of_digit h0 (h3 h0 (List.mem_cons_self h0 hh'))
  obtain ⟨d, mr, hmr⟩ : ∃ d mr, mm.reverse = d :: mr := by
    cases hmm : mm.reverse with
    | nil => exact absurd (List.reverse_eq_nil_iff.mp hmm) h2
    | cons d mr => exact ⟨d, mr, rfl⟩
  have hd : d.isDigit = true := by
    have hdm : d ∈ mm.reverse := by rw [hmr]; exact List.mem_cons_self d mr
    exact h4 d (List.mem_reverse.mp hdm)
  have hwd : isJsWs d = false := ws_false_of_digit d hd
  have hshape : (h0 :: hh' ++ ':' :: mm) ++ [' ']
      = h0 :: (hh' ++ ':' :: (mm ++ [' '])) := by simp
  rw [hshape]
  unfold trimL
  rw [List.dropWhile_cons_of_neg (by simp [hw0])]
  have hrev : (h0 :: (hh' ++ ':' :: (mm ++ [' ']))).reverse
      = ' ' :: (mm.reverse ++ ':' :: (hh'.reverse ++ [h0])) := by
    simp
  rw [hrev, List.dropWhile_cons_of_pos (by decide), hmr, List.cons_append,
    List.dropWhile_cons_of_neg (by simp [hwd])]
  rw [show d :: (mr ++ ':' :: (hh'.reverse ++ [h0]))
      = (d :: mr) ++ ':' :: (hh'.reverse ++ [h0]) from rfl, ← hmr]
  simp

/-- parseFloat on a dotted digit block: the exact decimal value. -/
theorem parseFloatL_formula (hh mm : List Char) (h1 : hh ≠ [])
    (h3 : ∀ c ∈ hh, c.isDigit = true) (h4 : ∀ c ∈ mm, c.isDigit = true) :
    parseFloatL (hh ++ '.' :: mm) =
      JsFloat.num (digitsToNat (hh ++ mm)) (-(mm.length : Int)) := by
  obtain ⟨h0, hh', rfl⟩ : ∃ a l, hh = a :: l := by
    cases hh with
    | nil => exact absurd rfl h1
    | cons a l => exact ⟨a, l, rfl⟩
  have hd0 : h0.isDigit = true := h3 h0 (List.mem_cons_self h0 hh')
  have hw0 : isJsWs h0 = false := ws_false_of_digit h0 hd0
  have e0 : List.dropWhile isJsWs ((h0 :: hh') ++ '.' :: mm) = (h0 :: hh') ++ '.' :: mm := by
    rw [List.cons_append, List.dropWhile_cons_of_neg (by simp [hw0])]
  have e1 : signSplit ((h0 :: hh') ++ '.' :: mm) = (false, (h0 :: hh') ++ '.' :: mm) := by
    rw [List.cons_append]
    show (if h0 = '-' then (true, hh' ++ '.' :: mm)
      else if h0 = '+' then (false, hh' ++ '.' :: mm)
      else (false, h0 :: (hh' ++ '.' :: mm))) = (false, h0 :: (hh' ++ '.' :: mm))
    rw [if_neg (ne_of_digit_of_not h0 '-' hd0 (by decide)),
      if_neg (ne_of_digit_of_not h0 '+' hd0 (by decide))]
  have e2 : isInfinity ((h0 :: hh') ++ '.' :: mm) = false := by
    rw [List.cons_append]
    exact isInfinity_cons_false h0 _ (ne_of_digit_of_not h0 'I' hd0 (by decide))
  have e3 : List.takeWhile Char.isDigit ((h0 :: hh') ++ '.' :: mm) = h0 :: hh' := by
    rw [takeWhile_append_all _ _ h3, List.takeWhile_cons_of_neg (by decide),
      List.append_nil]
  have e4 : List.dropWhile Char.isDigit ((h0 :: hh') ++ '.' :: mm) = '.' :: mm := by
    rw [dropWhile_append_all _ _ h3, List.dropWhile_cons_of_neg (by decide)]
  have e5 : fracSplit ('.' :: mm) = (mm, []) := by
    show (if ('.' : Char) = '.' then (mm.takeWhile Char.isDigit, mm.dropWhile Char.isDigit)
      else ([], '.' :: mm)) = (mm, [])
    rw [if_pos rfl, takeWhile_all mm h4, dropWhile_all mm h4]
  unfold parseFloatL
  simp only [e0, e1, e2, e3, e4, e5]
  rw [if_neg (by simp), if_neg (by simp)]
  simp [parseExpVal]

/-- The computed sort key of a well-formed label hh:mm - rest. -/
theorem parseTimeL_formula (hh mm rest : List Char) (h1 : hh ≠ []) (h2 : mm ≠ [])
    (h3 : ∀ c ∈ hh, c.isDigit = true) (h4 : ∀ c ∈ mm, c.isDigit = true) :
    parseTimeL (hh ++ ':' :: mm ++ ' ' :: '-' :: rest) =
      JsFloat.num (digitsToNat (hh ++ mm)) (-(mm.length : Int)) := by
  unfold parseTimeL
  have hshape : (hh ++ ':' :: mm) ++ ' ' :: '-' :: rest
      = hh ++ ':' :: (mm ++ ' ' :: '-' :: rest) := by simp
  have t1 : ((hh ++ ':' :: mm) ++ ' ' :: '-' :: rest).takeWhile (fun c => c != '-')
      = (hh ++ ':' :: mm) ++ [' '] := by
    rw [hshape]
    rw [takeWhile_append_all hh _ (fun c hc => by
      simp only [bne_iff_ne, ne_eq]
      exact ne_of_digit_of_not c '-' (h3 c hc) (by decide))]
    rw [List.takeWhile_cons_of_pos (by decide)]
    rw [takeWhile_append_all mm _ (fun c hc => by
      simp only [bne_iff_ne, ne_eq]
      exact ne_of_digit_of_not c '-' (h4 c hc) (by decide))]
    rw [List.takeWhile_cons_of_pos (by decide), List.takeWhile_cons_of_neg (by decide)]
    simp
  rw [t1, trimL_formula hh mm h1 h2 h3 h4,
    replaceFirstColon_append hh mm (fun c hc =>
      ne_of_digit_of_not c ':' (h3 c hc) (by decide))]
  exact parseFloatL_formula hh mm h1 h3 h4

/-- The value of the computed sort key of a well-formed label: the decimal
append of the minute digits, not the sexagesimal value. -/
theorem parseTimeL_value (hh mm rest : List Char) (h1 : hh ≠ []) (h2 : mm ≠ [])
    (h3 : ∀ c ∈ hh, c.isDigit = true) (h4 : ∀ c ∈ mm, c.isDigit = true) :
    jsValue (parseTimeL (hh ++ ':' :: mm ++ ' ' :: '-' :: rest)) =
      some ((digitsToNat hh : ℚ) + (digitsToNat mm : ℚ) / (10 : ℚ) ^ mm.length) := by
  rw [parseTimeL_formula hh mm rest h1 h2 h3 h4]
  unfold jsValue
  rw [digitsToNat_append]
  have h10 : ((10 : ℚ)) ^ mm.length ≠ 0 := by positivity
  push_cast
  rw [zpow_neg, zpow_natCast]
  field_simp

/-- When every occurring label parses to a finite key, the column order is
ascending in the numeric key. -/
theorem sortedTimes_pairwise_value (s : Schedule)
    (hp : ∀ t, appearsSlot s t = true → ∃ m e, parseTime t = JsFloat.num m e) :
    (sortedTimes s).Pairwise (fun a b => qkey a ≤ qkey b) := by
  have hmemp : ∀ t ∈ slotsList s, ∃ m e, parseTime t = JsFloat.num m e :=
    fun t ht => hp t ((mem_slotsList_iff s t).mp ht)
  have hcongr : sortedTimes s = (slotsList s).insertionSort (fun a b => qkey a ≤ qkey b) := by
    unfold sortedTimes
    apply insertionSort_congr
    intro a ha b hb
    obtain ⟨ma, ea, hma⟩ := hmemp a ha
    obtain ⟨mb, eb, hmb⟩ := hmemp b hb
    show timeLE a b ↔ qkey a ≤ qkey b
    unfold timeLE timeCmp qkey
    rw [hma, hmb]
    simp only [jsFloatSubSign, jsValue, Option.getD_some]
    exact decCmp_le_iff ma ea mb eb
  rw [hcongr]
  haveI : IsTotal String (fun a b => qkey a ≤ qkey b) := ⟨fun a b => le_total _ _⟩
  haveI : IsTrans String (fun a b => qkey a ≤ qkey b) := ⟨fun a b c => le_trans⟩
  exact List.sorted_insertionSort _ _


/-- Claim C4: for a well-formed label the column sort key is the number made
of the hour digits as integer part with the minute digits appended directly
as decimal fraction (the text before the first colon, then the text after it
as written), e.g. 10:30 keys as 10.3 = 103/10 and 10:45 as 10.45 = 209/20,
not the sexagesimal 10.5 = 21/2 or 10.75 = 43/4; and the columns of a fully
parsed schedule are ordered ascending in this key. -/
theorem claim4_theorem :
    (∀ (hh mm rest : List Char), hh ≠ [] → mm ≠ [] →
      (∀ c ∈ hh, c.isDigit = true) → (∀ c ∈ mm, c.isDigit = true) →
      jsValue (parseTimeL (hh ++ ':' :: mm ++ ' ' :: '-' :: rest)) =
        some ((digitsToNat hh : ℚ) + (digitsToNat mm : ℚ) / (10 : ℚ) ^ mm.length)) ∧
    jsValue (parseTime ("10:30 - 11:30")) = some ((103 : ℚ) / 10) ∧
    (103 : ℚ) / 10 ≠ 21 / 2 ∧
    jsValue (parseTime ("10:45 - 11:45")) = some ((209 : ℚ) / 20) ∧
    (209 : ℚ) / 20 ≠ 43 / 4 ∧
    (∀ s : Schedule,
      (∀ t, appearsSlot s t = true → ∃ m e, parseTime t = JsFloat.num m e) →
      (sortedTimes s).Pairwise (fun a b => qkey a ≤ qkey b)) := by
  refine ⟨parseTimeL_value, ?_, by norm_num, ?_, by norm_num, sortedTimes_pairwise_value⟩
  · rw [show parseTime ("10:30 - 11:30") = JsFloat.num 1030 (-2) from by decide]
    show some ((1030 : ℚ) * (10 : ℚ) ^ (-2 : Int)) = some ((103 : ℚ) / 10)
    norm_num
  · rw [show parseTime ("10:45 - 11:45") = JsFloat.num 1045 (-2) from by decide]
    show some ((1045 : ℚ) * (10 : ℚ) ^ (-2 : Int)) = some ((209 : ℚ) / 20)
    norm_num

/-- Claim C4 at concrete inputs: the 10:30 label keys to 103/10, and the
columns of spec Example 1 are ascending in the numeric key. -/
theorem claim4_witness :
    jsValue (parseTimeL (('1' :: '0' :: []) ++ ':' :: ('3' :: '0' :: []) ++
        ' ' :: '-' :: (" 11:30").toList)) =
      some ((digitsToNat ('1' :: '0' :: []) : ℚ) +
        (digitsToNat ('3' :: '0' :: []) : ℚ) /
          (10 : ℚ) ^ (('3' :: '0' :: []) : List Char).length) ∧
    (sortedTimes exSchedule1).Pairwise (fun a b => qkey a ≤ qkey b) := by
  constructor
  · exact claim4_theorem.1 ('1' :: '0' :: []) ('3' :: '0' :: []) ((" 11:30").toList)
      (by decide) (by decide) (by decide) (by decide)
  · apply claim4_theorem.2.2.2.2.2 exSchedule1
    intro t ht
    simp only [appearsSlot, exSchedule1, List.any_cons, List.any_nil,
      Bool.or_false, Bool.or_eq_true, beq_iff_eq] at ht
    rcases ht with h | h
    · exact ⟨900, -2, by rw [← h]; decide⟩
    · exact ⟨1000, -2, by rw [← h]; decide⟩


end TT
